import Mathlib

/-
  Verification of the MimiC compiler middle-end against its specification.

  The development shallowly embeds the parts of the repository the claims
  touch:
  * the type system's predicates (spec section 4.1; type.cpp is not among
    the staged sources, so these are modelled from the spec's words),
  * the IR builder operations CreateStore / CreateCast (mid/module.cpp),
  * Module::SealGlobalCtor and Module::Dump (mid/module.cpp),
  * PassManager::RunPasses (opt/passman.cpp),
  * the LICM pass (opt/transforms/licm.cpp) over a finite value graph,
  * the textual printer's Branch/Jump/Return lines (mid/ssa.cpp).
-/

set_option maxRecDepth 4000

namespace MimiC

/-! ## Type system (spec section 4.1) -/

/-- Modelled from the spec: primitive type kinds, `kind ∈ {Void, Int8, Int32,
Bool}` (section 3; type.h / type.cpp are not among the staged sources). -/
inductive PrimK where
  | void
  | int8
  | int32
  | boolK
  deriving DecidableEq

mutual

/-- Modelled from the spec: the Type tagged variant of section 3.  The primary
type of a value carries no reference/const attribute (those live only in the
"original" view), so `GetTrivialType` is the identity on this model. -/
inductive Ty where
  | prim (k : PrimK) (signed : Bool)
  | ptrTo (pointee : Ty) (isMut : Bool)
  | array (elem : Ty) (len : Nat)
  | strct (fields : TyList)
  | fn (params : TyList) (ret : Ty) (variadic : Bool)
  | enum (underlying : Ty)

/-- A list of types (struct fields, function parameters), kept mutually
inductive with Ty so that the structural operations below are plain
structural recursions. -/
inductive TyList where
  | nil
  | cons (head : Ty) (tail : TyList)

end

mutual

/-- Structural equality of types, `is_identical` of the spec. -/
def tyBeq : Ty → Ty → Bool
  | .prim k1 s1, .prim k2 s2 => decide (k1 = k2) && (s1 == s2)
  | .ptrTo p1 m1, .ptrTo p2 m2 => tyBeq p1 p2 && (m1 == m2)
  | .array e1 n1, .array e2 n2 => tyBeq e1 e2 && (n1 == n2)
  | .strct f1, .strct f2 => tyListBeq f1 f2
  | .fn p1 r1 v1, .fn p2 r2 v2 => tyListBeq p1 p2 && tyBeq r1 r2 && (v1 == v2)
  | .enum u1, .enum u2 => tyBeq u1 u2
  | _, _ => false

def tyListBeq : TyList → TyList → Bool
  | .nil, .nil => true
  | .cons x xs, .cons y ys => tyBeq x y && tyListBeq xs ys
  | _, _ => false

end

/-- Structural equality, `is_identical` of the spec. -/
def isIdentical (a b : Ty) : Bool := tyBeq a b

/-- Modelled from the spec: `is_integer` holds of the non-void primitives. -/
def isIntegerTy : Ty → Bool
  | .prim k _ => decide (k ≠ PrimK.void)
  | _ => false

def isVoidTy : Ty → Bool
  | .prim k _ => decide (k = PrimK.void)
  | _ => false

def isPointerTy : Ty → Bool
  | .ptrTo _ _ => true
  | _ => false

def isArrayTy : Ty → Bool
  | .array _ _ => true
  | _ => false

/-- `deref` for pointer/array types (spec section 3); `GetDerefedType`. -/
def derefTy : Ty → Option Ty
  | .ptrTo p _ => some p
  | .array e _ => some e
  | _ => none

/-- Modelled from the spec: primary types carry no reference/const attribute,
so stripping them (`GetTrivialType`) changes nothing. -/
def trivialTy (t : Ty) : Ty := t

/-- Modelled from the spec: `get_size` on the primitive kinds (storage size
in bytes). -/
def primSize : PrimK → Nat
  | .void => 0
  | .int8 => 1
  | .int32 => 4
  | .boolK => 1

def tySize : Ty → Nat
  | .prim k _ => primSize k
  | _ => 0

/-- Modelled from the spec (section 4.1): `can_accept(dst, src)` — integers
widen and sign-convert (a same-width conversion is identity-like, but a
narrowing one is reserved to `can_cast_to`), an array decays to a pointer to
its element, pointers match when the pointees are identical or one side is a
void pointer, everything else requires identity. -/
def canAccept (dst src : Ty) : Bool :=
  if isIdentical dst src then true
  else if isIntegerTy dst && isIntegerTy src
      && decide (tySize src ≤ tySize dst) then true
  else
    match dst, src with
    | .ptrTo p _, .array e _ => isIdentical p e
    | .ptrTo p _, .ptrTo q _ => isIdentical p q || isVoidTy p || isVoidTy q
    | _, _ => false

/-- Modelled from the spec (section 4.1): `can_cast_to` additionally permits
int-to-pointer, pointer-to-int and narrowing integer conversions. -/
def canCastTo (src dst : Ty) : Bool :=
  canAccept dst src
    || (isIntegerTy src && isPointerTy dst)
    || (isPointerTy src && isIntegerTy dst)
    || (isIntegerTy src && isIntegerTy dst)

/-! ## Builder values (mid/module.cpp)

A value as the builder operations `CreateStore` / `CreateCast` see it: its
primary type, whether `IsConst()` holds of it, and what `GetAddr()` returns
for it (the pointer it was materialized behind, when there is one). -/

inductive BV where
  | mk (ty : Ty) (isConst : Bool) (addr : Option BV)

def BV.ty : BV → Ty
  | .mk t _ _ => t

def BV.isConst : BV → Bool
  | .mk _ c _ => c

def BV.getAddr : BV → Option BV
  | .mk _ _ a => a

/-- The chain of values `GetAddr` can reach from a value, the value first. -/
def BV.addrChain : BV → List BV
  | .mk t c a => .mk t c a :: (match a with
      | none => []
      | some p => p.addrChain)

/-- Instructions the builder inserts at the insert point while building a
store: the implicit cast (when one is inserted) and the store itself. -/
inductive MInst where
  | castI (target : Ty)
  | storeI (valTy : Ty) (ptrTy : Ty)

def countCasts (l : List MInst) : Nat :=
  (l.filter fun i => match i with | .castI _ => true | _ => false).length

/-- Module::CreateCast: asserts `CanCastTo`, returns the operand unchanged
when the types are already identical, takes the address of an array operand,
and creates a cast node that is inserted as an instruction only when the
operand is not a constant (a constant cast is a pure constant expression). -/
def createCast (x : BV) (t : Ty) : Option (BV × List MInst) :=
  let target := trivialTy t
  if ¬ canCastTo x.ty target then none
  else if isIdentical x.ty target then some (x, [])
  else
    let oprOpt := if isArrayTy x.ty then x.getAddr else some x
    match oprOpt with
    | none => none
    | some o =>
        let c : BV := .mk target o.isConst none
        if o.isConst then some (c, []) else some (c, [MInst.castI target])

/-- The pointer-fixing loop at the head of Module::CreateStore: take the
address of the pointer while its type cannot be dereferenced or its pointee
cannot accept the value's type.  Returns the first acceptable pointer in the
address chain; none models the assert firing when the chain runs out (the
fuel bounds the source's unbounded while-loop, whose trips are bounded by
the finite GetAddr chain anyway). -/
def getProperPtr (valTy : Ty) : Nat → BV → Option BV
  | 0, _ => none
  | fuel + 1, p =>
    match derefTy p.ty with
    | some d =>
        if canAccept d valTy then some p
        else
          match p.getAddr with
          | none => none
          | some q => getProperPtr valTy fuel q
    | none =>
        match p.getAddr with
        | none => none
        | some q => getProperPtr valTy fuel q

/-- Module::CreateStore: fix the pointer, insert an implicit cast when the
value's type is acceptable but not identical to the pointee, insert the
store. -/
def createStore (fuel : Nat) (value pointer : BV) : Option (List MInst) := do
  let p ← getProperPtr value.ty fuel pointer
  let target ← derefTy p.ty
  if isIdentical value.ty target then
    pure [MInst.storeI value.ty p.ty]
  else do
    let (v2, cs) ← createCast value target
    pure (cs ++ [MInst.storeI v2.ty p.ty])

/-! ## Module state, SealGlobalCtor and Dump (mid/module.cpp) -/

/-- A simple instruction record for the global constructor's blocks: the
jump inserted by sealing, or anything else (the lowered initializer stores
and the pre-inserted void return). -/
inductive CInst where
  | jumpTo (target : Nat)
  | otherInst (tag : Nat)
  deriving DecidableEq

/-- The module state SealGlobalCtor touches: whether the synthetic global
constructor exists and is sealed, the constructor entry block's instruction
list, the constructor exit block's predecessor list, the current insert
point, and the (abstract) global-variable and function lists that Dump
prints. -/
structure ModuleSt where
  hasGlobalCtor : Bool
  ctorSealed : Bool
  ctorEntryId : Nat
  ctorExitId : Nat
  ctorEntryInsts : List CInst
  ctorExitPreds : List Nat
  insertPoint : Option Nat
  vars : List Nat
  funcs : List Nat
  deriving DecidableEq

/-- Module::SealGlobalCtor: when the constructor exists and is not sealed,
move the insert point to the entry block, CreateJump to the exit block (which
appends the jump to the entry block and registers the entry block as a
predecessor of the exit block), and mark the constructor sealed. -/
def sealGlobalCtor (m : ModuleSt) : ModuleSt :=
  if m.hasGlobalCtor && !m.ctorSealed then
    { m with
      insertPoint := some m.ctorEntryId
      ctorEntryInsts := m.ctorEntryInsts ++ [CInst.jumpTo m.ctorExitId]
      ctorExitPreds := m.ctorExitPreds ++ [m.ctorEntryId]
      ctorSealed := true }
  else m

/-- Module::Dump: seal the global constructor, then print the global
variables and the functions of the (now sealed) module.  The textual printer
itself is deterministic and stateless between calls (a fresh IdManager per
call, the in-expression counter balanced by scope guards), so it is taken
here as an arbitrary pure rendering function of the module state. -/
def moduleDump (render : ModuleSt → String) (m : ModuleSt) :
    ModuleSt × String :=
  let m2 := sealGlobalCtor m
  (m2, render m2)

/-! ## PassManager::RunPasses (opt/passman.cpp) -/

/-- The module's value lists as the pass manager sees them: the global
variables and the functions, a function being a value together with its
blocks (all of them SSA users in the source; block contents are abstracted
to a payload). -/
structure PMSt where
  vars : List Nat
  funcs : List (Nat × List Nat)
  deriving DecidableEq

inductive PassKind where
  | modP
  | funcP
  | blockP
  deriving DecidableEq

/-- A registered pass: its minimum optimization level and its behaviour on
the state it is dispatched over, each entry point reporting change.  The
source's single RunOnModule(UserList) is invoked once on the variable list
and once on the function list; the two invocations appear here as two typed
entry points. -/
structure PassObj where
  kind : PassKind
  minOptLevel : Nat
  onModuleVars : List Nat → List Nat × Bool
  onModuleFuncs : List (Nat × List Nat) → List (Nat × List Nat) × Bool
  onFunction : (Nat × List Nat) → (Nat × List Nat) × Bool
  onBlock : Nat → Nat × Bool

/-- One pass's run inside RunPasses: a module pass runs on the global
variables and then on the functions, a function pass on every function, a
block pass on every block of every function; `changed` is reported when any
entry point reports it. -/
def runPassOnce (p : PassObj) (st : PMSt) : PMSt × Bool :=
  match p.kind with
  | .modP =>
      let (v2, c1) := p.onModuleVars st.vars
      let (f2, c2) := p.onModuleFuncs st.funcs
      ({ vars := v2, funcs := f2 }, c1 || c2)
  | .funcP =>
      let r := st.funcs.foldl
        (fun (acc : List (Nat × List Nat) × Bool) f =>
          let (f2, c) := p.onFunction f
          (acc.1 ++ [f2], acc.2 || c)) ([], false)
      ({ st with funcs := r.1 }, r.2)
  | .blockP =>
      let r := st.funcs.foldl
        (fun (acc : List (Nat × List Nat) × Bool) f =>
          let br := f.2.foldl
            (fun (bacc : List Nat × Bool) b =>
              let (b2, c) := p.onBlock b
              (bacc.1 ++ [b2], bacc.2 || c)) ([], false)
          (acc.1 ++ [(f.1, br.1)], acc.2 || br.2)) ([], false)
      ({ st with funcs := r.1 }, r.2)

/-- One full sweep of RunPasses over the registered pass list: a pass whose
minimum optimization level exceeds the current level is skipped; `changed`
accumulates over the passes that run. -/
def sweepPasses (level : Nat) (passes : List PassObj) (st : PMSt) :
    PMSt × Bool :=
  passes.foldl
    (fun (acc : PMSt × Bool) p =>
      if p.minOptLevel > level then acc
      else
        let (st2, c) := runPassOnce p acc.1
        (st2, acc.2 || c)) (st, false)

/-- The sweep as the spec words it: first filter the registered list down to
the passes enabled at the current level, then run every pass of the filtered
list. -/
def sweepPassesSpec (level : Nat) (passes : List PassObj) (st : PMSt) :
    PMSt × Bool :=
  (passes.filter fun p => decide (p.minOptLevel ≤ level)).foldl
    (fun (acc : PMSt × Bool) p =>
      let (st2, c) := runPassOnce p acc.1
      (st2, acc.2 || c)) (st, false)

/-- PassManager::RunPasses: re-run the whole sweep until a full sweep reports
no change.  The source's while-loop has no iteration bound, so the model
carries fuel; none means the fuel ran out while sweeps were still reporting
changes. -/
def runPassesFuel (level : Nat) (passes : List PassObj) :
    Nat → PMSt → Option PMSt
  | 0, _ => none
  | n + 1, st =>
      let (st2, c) := sweepPasses level passes st
      if c then runPassesFuel level passes n st2 else some st2

/-! ## Textual printer: Branch, Jump and Return lines (mid/ssa.cpp) -/

/-- PrintId: a named value prints as at-name, an unnamed one as
percent-number from the IdManager. -/
def printId (names : Nat → Option String) (idOf : Nat → Nat) (v : Nat) :
    String :=
  match names v with
  | some n => "@" ++ n
  | none => "%" ++ toString (idOf v)

/-- BranchSSA::Dump: two-space indent, the mnemonic, then the condition and
the two successor blocks dumped in expression position (PrintId for blocks
and instruction results), separated by comma-space, ending the line. -/
def branchSSADump (dv : Nat → String) (cond tb fb : Nat) : String :=
  "  " ++ "branch " ++ dv cond ++ ", " ++ dv tb ++ ", " ++ dv fb ++ "\n"

/-- JumpSSA::Dump: two-space indent, the mnemonic, the target block. -/
def jumpSSADump (dv : Nat → String) (target : Nat) : String :=
  "  " ++ "jump " ++ dv target ++ "\n"

/-- ReturnSSA::Dump: two-space indent, the mnemonic, then `void` when the
return has no value, else the value dumped with its type. -/
def returnSSADump (dv : Nat → String) (tyIdOf : Nat → Nat) (v : Option Nat) :
    String :=
  "  " ++ "return " ++
    (match v with
     | none => "void"
     | some x => toString (tyIdOf x) ++ " " ++ dv x) ++ "\n"

/-! ## LICM (opt/transforms/licm.cpp)

The pass is modelled over a finite value graph keyed by numeric value ids.
Blocks are kept as id-keyed instruction lists (the live lists the pass
mutates); dominance and loop info are the analysis inputs the pass fetches
from the pass manager.  Hoisting moves instructions without touching the
CFG or any operand edge, so the analysis inputs stay valid across runs. -/

/-- The SSA node kinds LICM dispatches on. -/
inductive VK where
  | access
  | binary
  | unary
  | castK
  | select
  | load
  | store
  | alloca
  | phi
  | phiOpr
  | argRef
  | globalVar
  | constVal
  | undef
  | branch
  | jump
  | retK
  | call
  deriving DecidableEq

/-- A value node: its kind, its operand value ids in order, and whether
IsConst() holds of it. -/
structure VNode where
  kind : VK
  oprs : List Nat
  isConst : Bool
  deriving DecidableEq

/-- A natural loop as LoopInfoPass reports it: the body blocks (an unordered
set in the source, kept here in its iteration order) and the preheader
created by loop normalization. -/
structure LoopI where
  body : List Nat
  preheader : Nat

/-- The function LICM runs on, together with the analysis results it
fetches: the value graph, the blocks (id, instruction list) in program
order, the function's arguments (value id, is-pointer-typed), the loop list
innermost first, and the dominance oracle. -/
structure Env where
  nodes : List (Nat × VNode)
  blocks : List (Nat × List Nat)
  funcArgs : List (Nat × Bool)
  loops : List LoopI
  dom : Nat → Nat → Bool

def Env.node (e : Env) (v : Nat) : Option VNode :=
  (e.nodes.find? fun p => p.1 == v).map Prod.snd

def kindOf (e : Env) (v : Nat) : VK :=
  match e.node v with
  | some n => n.kind
  | none => VK.undef

def oprsOf (e : Env) (v : Nat) : List Nat :=
  match e.node v with
  | some n => n.oprs
  | none => []

def isConstOf (e : Env) (v : Nat) : Bool :=
  match e.node v with
  | some n => n.isConst
  | none => false

/-- The users of a value: every node holding it as an operand (the use-list
inverse of the operand edges). -/
def usersOf (e : Env) (v : Nat) : List Nat :=
  (e.nodes.filter fun p => p.2.oprs.contains v).map Prod.fst

/-- The live instruction list of a block. -/
def Env.insts (e : Env) (b : Nat) : List Nat :=
  ((e.blocks.find? fun p => p.1 == b).map Prod.snd).getD []

/-- Replace one block's instruction list. -/
def setInsts (e : Env) (b : Nat) (l : List Nat) : Env :=
  { e with blocks := e.blocks.map fun p => if p.1 == b then (p.1, l) else p }

/-- ParentScanner: the parent block of a value, scanned from the blocks'
current instruction lists (when a value sits in several lists, the scan
leaves the last block's entry in the map). -/
def parentOf (e : Env) (v : Nat) : Option Nat :=
  e.blocks.foldl (fun acc p => if p.2.contains v then some p.1 else acc) none

/-- One pass over a Phi node inside GetBasePointer: collect the phi's users,
then walk the phi's operands, and whenever a PhiOperand's value is not among
the users, replace the running pointer by that value (the last such operand
wins); a non-PhiOperand operand fails the SSACast assertion. -/
def phiNext (e : Env) (p : Nat) : Option Nat :=
  let us := usersOf e p
  (oprsOf e p).foldlM
    (fun acc o =>
      if kindOf e o = VK.phiOpr then
        match (oprsOf e o).head? with
        | some v => some (if us.contains v then acc else v)
        | none => none
      else none) p

/-- GetBasePointer: peel Access and Cast through their pointer operand and
run `phiNext` on Phi nodes, forever; anything else is the base pointer.  The
source's for-loop has no bound, so the model carries fuel: none means the
peeling never reached a base pointer. -/
def getBasePointer (e : Env) : Nat → Nat → Option Nat
  | 0, _ => none
  | fuel + 1, p =>
      match kindOf e p with
      | VK.access =>
          match (oprsOf e p).head? with
          | some q => getBasePointer e fuel q
          | none => none
      | VK.castK =>
          match (oprsOf e p).head? with
          | some q => getBasePointer e fuel q
          | none => none
      | VK.phi =>
          match phiNext e p with
          | some q => getBasePointer e fuel q
          | none => none
      | _ => some p

/-- The pointer-typed arguments of the enclosing function. -/
def ptrArgs (e : Env) : List Nat :=
  (e.funcArgs.filter Prod.snd).map Prod.fst

/-- One instruction's contribution to the stored-pointer set: a store
records the base pointer of its pointer operand, and when that base pointer
is an ArgRef every pointer-typed argument is recorded too. -/
def storeStep (e : Env) (fuel : Nat) (stored : List Nat) (i : Nat) :
    Option (List Nat) :=
  if kindOf e i = VK.store then
    match (oprsOf e i)[1]? with
    | none => none
    | some ptr => do
        let bp ← getBasePointer e fuel ptr
        let stored :=
          if kindOf e bp = VK.argRef then stored ++ ptrArgs e else stored
        pure (stored ++ [bp])
  else pure stored

/-- ProcessStores: walk every instruction of every body block, accumulating
the stored-pointer set. -/
def processStores (e : Env) (body : List Nat) (fuel : Nat) :
    Option (List Nat) :=
  body.foldlM
    (fun stored b => (e.insts b).foldlM (storeStep e fuel) stored) []

/-- The marking state: the set of marked invariants and the hoist list in
marking order. -/
structure LState where
  marked : Finset Nat
  invs : List Nat
  deriving DecidableEq

/-- IsInvariant: constants and undef, argument references and globals,
values whose parent block is outside the loop body, and already-marked
invariants. -/
def isInvariant (e : Env) (body : List Nat)
    (scan : Nat → Option Nat) (marked : Finset Nat) (v : Nat) : Bool :=
  isConstOf e v || decide (kindOf e v = VK.undef)
    || decide (kindOf e v = VK.argRef) || decide (kindOf e v = VK.globalVar)
    || (match scan v with
        | none => true
        | some b => !(body.contains b))
    || decide (v ∈ marked)

/-- LogInvariant: mark the instruction when every operand is invariant and
its current block dominates the parent block of every in-loop user; a marked
instruction with at least one use is queued for hoisting. -/
def logInvariant (e : Env) (body : List Nat) (scan : Nat → Option Nat)
    (dom : Nat → Nat → Bool) (curB : Nat) (st : LState) (v : Nat) :
    LState :=
  if (oprsOf e v).all (isInvariant e body scan st.marked) then
    if (usersOf e v).all
        (fun u =>
          match scan u with
          | none => true
          | some pb => if body.contains pb then dom curB pb else true) then
      { marked := insert v st.marked
        invs := if usersOf e v = [] then st.invs else st.invs ++ [v] }
    else st
  else st

/-- RunPass dispatch on one instruction: Access, Binary, Unary, Cast and
Select go to LogInvariant; a Load goes there only when the base pointer of
its pointer operand is not in the stored set; an Alloca inside a loop fails
the source's assertion; every other kind is ignored. -/
def runInst (e : Env) (body : List Nat) (scan : Nat → Option Nat)
    (dom : Nat → Nat → Bool) (stored : List Nat) (fuel : Nat)
    (curB : Nat) (st : LState) (i : Nat) : Option LState :=
  match kindOf e i with
  | VK.access => some (logInvariant e body scan dom curB st i)
  | VK.binary => some (logInvariant e body scan dom curB st i)
  | VK.unary => some (logInvariant e body scan dom curB st i)
  | VK.castK => some (logInvariant e body scan dom curB st i)
  | VK.select => some (logInvariant e body scan dom curB st i)
  | VK.load =>
      match (oprsOf e i).head? with
      | none => none
      | some p => do
          let bp ← getBasePointer e fuel p
          if stored.contains bp then pure st
          else pure (logInvariant e body scan dom curB st i)
  | VK.alloca => none
  | _ => some st

/-- One instruction's step inside a sweep: already-marked instructions are
skipped, the rest go through the RunPass dispatch. -/
def sweepStep (e : Env) (body : List Nat) (scan : Nat → Option Nat)
    (dom : Nat → Nat → Bool) (stored : List Nat) (fuel : Nat)
    (b : Nat) (st : LState) (i : Nat) : Option LState :=
  if i ∈ st.marked then pure st
  else runInst e body scan dom stored fuel b st i

/-- One sweep of the invariant fixpoint: every instruction of every body
block. -/
def sweepLoop (e : Env) (body : List Nat) (scan : Nat → Option Nat)
    (dom : Nat → Nat → Bool) (stored : List Nat) (fuel : Nat)
    (st : LState) : Option LState :=
  body.foldlM
    (fun st b =>
      (e.insts b).foldlM (sweepStep e body scan dom stored fuel b) st) st

/-- n sweeps in a row (for the stabilization statement). -/
def sweepIter (e : Env) (body : List Nat) (scan : Nat → Option Nat)
    (dom : Nat → Nat → Bool) (stored : List Nat) (fuel : Nat) :
    Nat → LState → Option LState
  | 0, st => some st
  | n + 1, st => do
      let st2 ← sweepIter e body scan dom stored fuel n st
      sweepLoop e body scan dom stored fuel st2

/-- The while-loop of ProcessLoop: sweep, and stop as soon as a sweep leaves
the number of marked invariants unchanged (the source compares sizes; the
initial last-size of one forces at least one sweep). -/
def licmFixAux (e : Env) (body : List Nat) (scan : Nat → Option Nat)
    (dom : Nat → Nat → Bool) (stored : List Nat) (fuel : Nat) :
    Nat → LState → Option LState
  | 0, st => some st
  | n + 1, st => do
      let st2 ← sweepLoop e body scan dom stored fuel st
      if st2.marked.card = st.marked.card then pure st2
      else licmFixAux e body scan dom stored fuel n st2

/-- The number of instructions currently in the loop body. -/
def totalBodyInsts (e : Env) (body : List Nat) : Nat :=
  (body.map fun b => (e.insts b).length).sum

/-- The stored-pointer set and the stabilized marking state of ProcessLoop,
before hoisting. -/
def licmFinalState (e : Env) (scan : Nat → Option Nat) (lp : LoopI)
    (fuel : Nat) : Option LState := do
  let stored ← processStores e lp.body fuel
  licmFixAux e lp.body scan e.dom stored fuel
    (totalBodyInsts e lp.body + 1) { marked := ∅, invs := [] }

/-- One removal inside the hoist step: take the instruction out of the
block the (possibly stale) parent scanner reports for it; a null parent
would crash the source. -/
def rmStep (scan : Nat → Option Nat) (e : Env) (i : Nat) : Option Env :=
  match scan i with
  | none => none
  | some pb => some (setInsts e pb ((e.insts pb).filter (· != i)))

/-- The hoist step of ProcessLoop (after the fixpoint): insert the queued
invariants immediately before the preheader's terminator (the position one
before the end of its instruction list — an empty preheader would be
undefined behaviour in the source), then remove each of them from the block
the parent scanner reports for it. -/
def hoistInvs (e : Env) (scan : Nat → Option Nat) (pre : Nat)
    (invs : List Nat) : Option Env :=
  match (e.insts pre).reverse with
  | [] => none
  | t :: restRev =>
      invs.foldlM (rmStep scan) (setInsts e pre (restRev.reverse ++ invs ++ [t]))

/-- ProcessLoop: record the stored pointers, run the invariant fixpoint,
return unchanged when nothing was queued, else hoist. -/
def processLoop (e : Env) (scan : Nat → Option Nat) (lp : LoopI)
    (fuel : Nat) : Option (Env × Bool) := do
  let st ← licmFinalState e scan lp fuel
  if st.invs = [] then pure (e, false)
  else do
    let e2 ← hoistInvs e scan lp.preheader st.invs
    pure (e2, true)

/-- One loop's processing inside RunOnFunction, accumulating change. -/
def loopStep (scan : Nat → Option Nat) (fuel : Nat) (acc : Env × Bool)
    (lp : LoopI) : Option (Env × Bool) := do
  let r ← processLoop acc.1 scan lp fuel
  pure (r.1, acc.2 || r.2)

/-- RunOnFunction: scan parent info once, then process every loop innermost
first, accumulating change; the parent scanner is not rescanned between
loops, so later loops see parent info that hoisting may have staled. -/
def runOnFunction (e : Env) (fuel : Nat) : Option (Env × Bool) :=
  e.loops.foldlM (loopStep (parentOf e) fuel) (e, false)

/-- The instructions currently in the loop body's blocks, as a set. -/
def bodyInstsFinset (e : Env) (body : List Nat) : Finset Nat :=
  ((body.map fun b => e.insts b).flatten).toFinset

/-- The invariant the marking fixpoint maintains between the marked set and
the hoist queue: the queue has no duplicates and holds exactly the marked
instructions that have at least one use, in marking order. -/
def InvsInv (e : Env) (st : LState) : Prop :=
  st.invs.Nodup ∧ ∀ v, v ∈ st.invs ↔ v ∈ st.marked ∧ usersOf e v ≠ []

/-! ## Concrete instances used by the witnesses and counterexamples -/

def tyI32 : Ty := Ty.prim PrimK.int32 true

def tyI8 : Ty := Ty.prim PrimK.int8 true

/-- A constant int8 value (a ConstInt of char type). -/
def c5CexVal : BV := BV.mk tyI8 true none

/-- A pointer to int32 (an alloca of an int). -/
def c5CexPtr : BV := BV.mk (Ty.ptrTo tyI32 true) false none

/-- A non-constant int8 value (a load result, say). -/
def c5WitVal : BV := BV.mk tyI8 false none

/-- A pointer to int32. -/
def c5WitPtr : BV := BV.mk (Ty.ptrTo tyI32 true) false none

/-- The rendering of unnamed values in expression position. -/
def plainRender : Nat → String := fun n => "%" ++ toString n

/-- A name map with no named values. -/
def noNames : Nat → Option String := fun _ => none

/-- Loop nest for the C7 counterexample: outer loop L2 with body blocks
2, 3, 4, 5 and preheader 1; inner loop L1 with body block 4 and preheader 3
(which lies inside L2's body).  Value 20 is a loop-invariant binary
instruction in block 4, stored to a global by value 30. -/
def c7Env : Env :=
  { nodes := [
      (10, { kind := .constVal, oprs := [], isConst := true }),
      (11, { kind := .globalVar, oprs := [], isConst := false }),
      (20, { kind := .binary, oprs := [10, 10], isConst := false }),
      (30, { kind := .store, oprs := [20, 11], isConst := false }),
      (100, { kind := .jump, oprs := [2], isConst := false }),
      (101, { kind := .branch, oprs := [10, 3, 6], isConst := false }),
      (103, { kind := .jump, oprs := [4], isConst := false }),
      (104, { kind := .branch, oprs := [10, 4, 5], isConst := false }),
      (105, { kind := .jump, oprs := [2], isConst := false })]
    blocks := [
      (1, [100]), (2, [101]), (3, [103]), (4, [20, 30, 104]), (5, [105])]
    funcArgs := []
    loops := [
      { body := [4], preheader := 3 },
      { body := [2, 3, 4, 5], preheader := 1 }]
    dom := fun a b =>
      (a == 1) || (a == 2 && (b == 2 || b == 3 || b == 4 || b == 5))
        || (a == 3 && (b == 3 || b == 4 || b == 5))
        || (a == 4 && (b == 4 || b == 5)) || (a == 5 && b == 5) }

/-- An empty function: no loops at all. -/
def c7WitEnv : Env :=
  { nodes := [], blocks := [], funcArgs := [], loops := []
    dom := fun _ _ => false }

def c1Loop : LoopI := { body := [3, 2], preheader := 1 }

/-- Single loop whose body set iterates block 3 before block 2 although
block 2 precedes block 3 in program order.  Values 21 (block 2) and 31
(block 3) are invariants with users; value 23 (block 2) is an invariant
with no users. -/
def c1Env : Env :=
  { nodes := [
      (10, { kind := .constVal, oprs := [], isConst := true }),
      (11, { kind := .globalVar, oprs := [], isConst := false }),
      (12, { kind := .globalVar, oprs := [], isConst := false }),
      (21, { kind := .binary, oprs := [10, 10], isConst := false }),
      (22, { kind := .store, oprs := [21, 11], isConst := false }),
      (23, { kind := .binary, oprs := [10, 10], isConst := false }),
      (31, { kind := .binary, oprs := [10, 10], isConst := false }),
      (32, { kind := .store, oprs := [31, 12], isConst := false }),
      (100, { kind := .jump, oprs := [2], isConst := false }),
      (103, { kind := .jump, oprs := [3], isConst := false }),
      (104, { kind := .branch, oprs := [10, 2, 6], isConst := false })]
    blocks := [(1, [100]), (2, [21, 22, 23, 103]), (3, [31, 32, 104])]
    funcArgs := []
    loops := [c1Loop]
    dom := fun a b =>
      (a == 1) || (a == 2 && (b == 2 || b == 3)) || (a == 3 && b == 3) }

def c1WitLoop : LoopI := { body := [2], preheader := 1 }

/-- Single loop, one invariant (21) with one user (22). -/
def c1WitEnv : Env :=
  { nodes := [
      (10, { kind := .constVal, oprs := [], isConst := true }),
      (11, { kind := .globalVar, oprs := [], isConst := false }),
      (21, { kind := .binary, oprs := [10, 10], isConst := false }),
      (22, { kind := .store, oprs := [21, 11], isConst := false }),
      (100, { kind := .jump, oprs := [2], isConst := false }),
      (104, { kind := .branch, oprs := [10, 2, 6], isConst := false })]
    blocks := [(1, [100]), (2, [21, 22, 104])]
    funcArgs := []
    loops := [c1WitLoop]
    dom := fun a b => (a == 1) || (a == 2 && b == 2) }

def c2Loop : LoopI := { body := [2], preheader := 1 }

/-- A loop that stores through one pointer argument (value 30) and loads
through the other (value 31): the store's ArgRef base pointer puts every
pointer argument into the stored set, so the load (41) is never marked. -/
def c2Env : Env :=
  { nodes := [
      (10, { kind := .constVal, oprs := [], isConst := true }),
      (30, { kind := .argRef, oprs := [], isConst := false }),
      (31, { kind := .argRef, oprs := [], isConst := false }),
      (40, { kind := .store, oprs := [10, 30], isConst := false }),
      (41, { kind := .load, oprs := [31], isConst := false }),
      (100, { kind := .jump, oprs := [2], isConst := false }),
      (104, { kind := .branch, oprs := [10, 2, 6], isConst := false })]
    blocks := [(1, [100]), (2, [40, 41, 104])]
    funcArgs := [(30, true), (31, true)]
    loops := [c2Loop]
    dom := fun a b => (a == 1) || (a == 2 && b == 2) }

/-- A one-block loop body with a single terminator instruction. -/
def c8WitEnv : Env :=
  { nodes := [
      (10, { kind := .constVal, oprs := [], isConst := true }),
      (104, { kind := .branch, oprs := [10, 2, 6], isConst := false })]
    blocks := [(1, [100]), (2, [104])]
    funcArgs := []
    loops := [{ body := [2], preheader := 1 }]
    dom := fun a b => (a == 1) || (a == 2 && b == 2) }

/-- A phi (40) with a single incoming operand (41) whose value (42) is a
user of the phi: GetBasePointer's phi step never changes the pointer. -/
def c9Env : Env :=
  { nodes := [
      (10, { kind := .constVal, oprs := [], isConst := true }),
      (40, { kind := .phi, oprs := [41], isConst := false }),
      (41, { kind := .phiOpr, oprs := [42, 2], isConst := false }),
      (42, { kind := .access, oprs := [40, 10], isConst := false })]
    blocks := []
    funcArgs := []
    loops := []
    dom := fun _ _ => false }

/-! ## Helper lemmas -/

mutual

theorem tyBeq_refl : ∀ t : Ty, tyBeq t t = true
  | .prim k s => by simp [tyBeq]
  | .ptrTo p m => by simp [tyBeq, tyBeq_refl p]
  | .array e n => by simp [tyBeq, tyBeq_refl e]
  | .strct f => by simp [tyBeq, tyListBeq_refl f]
  | .fn p r v => by simp [tyBeq, tyListBeq_refl p, tyBeq_refl r]
  | .enum u => by simp [tyBeq, tyBeq_refl u]

theorem tyListBeq_refl : ∀ l : TyList, tyListBeq l l = true
  | .nil => rfl
  | .cons x xs => by simp [tyListBeq, tyBeq_refl x, tyListBeq_refl xs]

end

theorem isIdentical_refl (t : Ty) : isIdentical t t = true := tyBeq_refl t

theorem canCastTo_trivial_self (t : Ty) :
    canCastTo t (trivialTy t) = true := by
  simp [canCastTo, canAccept, trivialTy, isIdentical, tyBeq_refl]

theorem self_mem_addrChain (p : BV) : p ∈ p.addrChain := by
  cases p with
  | mk t c a => cases a <;> simp [BV.addrChain]

/-- What a successful run of the CreateStore pointer loop guarantees: the
returned pointer dereferences to a type accepting the value, and it lies on
the original pointer's address chain. -/
theorem getProperPtr_sound (t : Ty) :
    ∀ (fuel : Nat) (p q : BV), getProperPtr t fuel p = some q →
      (∃ d, derefTy q.ty = some d ∧ canAccept d t = true) ∧
        q ∈ p.addrChain := by
  intro fuel
  induction fuel with
  | zero => intro p q h; simp [getProperPtr] at h
  | succ n ih =>
      intro p q h
      unfold getProperPtr at h
      cases hd : derefTy p.ty with
      | some d =>
          simp only [hd] at h
          by_cases ha : canAccept d t = true
          · rw [if_pos ha] at h
            cases h
            exact ⟨⟨d, hd, ha⟩, self_mem_addrChain p⟩
          · rw [if_neg ha] at h
            cases hq : p.getAddr with
            | none => rw [hq] at h; cases h
            | some r =>
                rw [hq] at h
                obtain ⟨hex, hmem⟩ := ih r q h
                refine ⟨hex, ?_⟩
                cases p with
                | mk pt pc pa =>
                    cases pa with
                    | none => simp [BV.getAddr] at hq
                    | some r2 =>
                        simp [BV.getAddr] at hq
                        subst hq
                        simp [BV.addrChain]
                        right; exact hmem
      | none =>
          simp only [hd] at h
          cases hq : p.getAddr with
          | none => rw [hq] at h; cases h
          | some r =>
              rw [hq] at h
              obtain ⟨hex, hmem⟩ := ih r q h
              refine ⟨hex, ?_⟩
              cases p with
              | mk pt pc pa =>
                  cases pa with
                  | none => simp [BV.getAddr] at hq
                  | some r2 =>
                      simp [BV.getAddr] at hq
                      subst hq
                      simp [BV.addrChain]
                      right; exact hmem

/-- When the original pointer is already acceptable, the loop returns it
without taking any address. -/
theorem getProperPtr_here (t : Ty) (fuel : Nat) (p : BV) (d : Ty)
    (hd : derefTy p.ty = some d) (ha : canAccept d t = true) :
    getProperPtr t (fuel + 1) p = some p := by
  simp [getProperPtr, hd, ha]

/-! ## C6 -/

/-- C6: for every value x, create_cast(x, x.type) returns x itself and
creates no new instruction and no new IR node. -/
theorem c6_create_cast_identity (x : BV) :
    createCast x x.ty = some (x, []) := by
  have h1 : isIdentical x.ty (trivialTy x.ty) = true := tyBeq_refl x.ty
  simp [createCast, h1, canCastTo_trivial_self]

/-! ## C5 -/

/-- C5 counterexample: storing a constant int8 through an int32 pointer (a
widening, hence acceptable, non-identical store) is the claim's "not
identical but acceptable" case, yet zero Cast instructions are inserted —
CreateCast turns a constant operand into a constant cast node that is never
inserted into a block. -/
theorem c5_cex_const_store_inserts_no_cast :
    (createStore 8 c5CexVal c5CexPtr).map countCasts = some 0 ∧
    isIdentical c5CexVal.ty tyI32 = false ∧
    canAccept tyI32 c5CexVal.ty = true ∧
    derefTy c5CexPtr.ty = some tyI32 := by
  exact ⟨rfl, by decide, by decide, rfl⟩

/-- C5 (amended): on a successful create_store of a non-array-typed value,
the final pointer dereferences to a type accepting the value and lies on the
original pointer's address chain; no address is taken exactly when the
original pointee already accepts the value; and exactly one Cast instruction
is inserted iff the value's type is not identical to the final pointee and
the value is not a constant (zero casts when identical or constant). -/
theorem c5_create_store_amended
    (fuel : Nat) (v p q : BV) (insts : List MInst) (d : Ty)
    (hq : getProperPtr v.ty fuel p = some q)
    (hd : derefTy q.ty = some d)
    (hs : createStore fuel v p = some insts)
    (hna : isArrayTy v.ty = false) :
    canAccept d v.ty = true ∧
    q ∈ p.addrChain ∧
    (q = p ↔ ∃ d0, derefTy p.ty = some d0 ∧ canAccept d0 v.ty = true) ∧
    countCasts insts =
      (if isIdentical v.ty d then 0 else if v.isConst then 0 else 1) := by
  obtain ⟨⟨d2, hd2, ha2⟩, hmem⟩ := getProperPtr_sound v.ty fuel p q hq
  have hdd : d2 = d := by rw [hd2] at hd; cases hd; rfl
  subst hdd
  refine ⟨ha2, hmem, ?_, ?_⟩
  · constructor
    · rintro rfl; exact ⟨d2, hd2, ha2⟩
    · rintro ⟨d0, hd0, ha0⟩
      cases fuel with
      | zero => simp [getProperPtr] at hq
      | succ n =>
          rw [getProperPtr_here v.ty n p d0 hd0 ha0] at hq
          cases hq; rfl
  · simp only [createStore, hq, hd, Option.bind_eq_bind, Option.some_bind] at hs
    by_cases hid : isIdentical v.ty d2 = true
    · rw [if_pos hid] at hs
      cases hs
      simp [hid, countCasts, List.filter]
    · rw [if_neg hid] at hs
      have hcast : canCastTo v.ty (trivialTy d2) = true := by
        simp [canCastTo, trivialTy, ha2]
      have hid2 : isIdentical v.ty (trivialTy d2) = false := by
        simpa [trivialTy] using (Bool.not_eq_true _).mp hid
      simp only [createCast, hcast, hid2, hna, Bool.false_eq_true,
        if_false, if_true, ite_false, ite_true, not_true, not_false_iff] at hs
      by_cases hc : v.isConst = true
      · rw [hc] at hs
        simp at hs
        cases hs
        simp [(Bool.not_eq_true _).mp hid, hc, countCasts, List.filter]
      · rw [(Bool.not_eq_true _).mp hc] at hs
        simp at hs
        cases hs
        simp [(Bool.not_eq_true _).mp hid, hc, countCasts, List.filter]

/-- C5 witness: a non-constant int8 value stored through an int32 pointer —
no address taken, exactly one cast inserted. -/
theorem c5_create_store_witness :
    canAccept tyI32 c5WitVal.ty = true ∧
    c5WitPtr ∈ c5WitPtr.addrChain ∧
    (c5WitPtr = c5WitPtr ↔
      ∃ d0, derefTy c5WitPtr.ty = some d0 ∧ canAccept d0 c5WitVal.ty = true) ∧
    countCasts [MInst.castI tyI32, MInst.storeI tyI32 c5WitPtr.ty] =
      (if isIdentical c5WitVal.ty tyI32 then 0
       else if c5WitVal.isConst then 0 else 1) :=
  c5_create_store_amended 8 c5WitVal c5WitPtr c5WitPtr
    [MInst.castI tyI32, MInst.storeI tyI32 c5WitPtr.ty] tyI32
    rfl rfl rfl rfl

/-! ## C4 -/

/-- C4: sealing the global constructor is idempotent, and since Dump seals
and then renders the sealed module with a pure printer, dumping twice
produces byte-identical output. -/
theorem c4_seal_idempotent_dump_stable
    (m : ModuleSt) (render : ModuleSt → String) :
    sealGlobalCtor (sealGlobalCtor m) = sealGlobalCtor m ∧
    (moduleDump render (moduleDump render m).1).2 = (moduleDump render m).2 := by
  have hseal : sealGlobalCtor (sealGlobalCtor m) = sealGlobalCtor m := by
    cases hG : m.hasGlobalCtor <;> cases hS : m.ctorSealed <;>
      simp [sealGlobalCtor, hG, hS]
  exact ⟨hseal, by simp [moduleDump, hseal]⟩

/-! ## C3 -/

/-- Skipping the too-high-level passes inside the fold equals folding over
the filtered list. -/
theorem sweepPasses_eq_filtered (level : Nat) :
    ∀ (passes : List PassObj) (acc : PMSt × Bool),
      passes.foldl
        (fun (acc : PMSt × Bool) p =>
          if p.minOptLevel > level then acc
          else
            let r := runPassOnce p acc.1
            (r.1, acc.2 || r.2)) acc
      = (passes.filter fun p => decide (p.minOptLevel ≤ level)).foldl
          (fun (acc : PMSt × Bool) p =>
            let r := runPassOnce p acc.1
            (r.1, acc.2 || r.2)) acc := by
  intro passes
  induction passes with
  | nil => intro acc; rfl
  | cons p ps ih =>
      intro acc
      by_cases h : p.minOptLevel > level
      · have hle : ¬ p.minOptLevel ≤ level := Nat.not_le.mpr h
        simp [List.filter, List.foldl, if_pos h, hle, ih]
      · have hle : p.minOptLevel ≤ level := Nat.not_lt.mp h
        simp [List.filter, List.foldl, if_neg h, hle, ih]

/-- C3: one sweep of run_passes runs exactly the registered passes whose
minimum optimization level is at most the current level, in registration
order; and the driver re-runs the full sweep until a sweep reports no
change, stopping right after the first changeless sweep. -/
theorem c3_run_passes_level_and_fixpoint
    (level : Nat) (passes : List PassObj) (st : PMSt) (n : Nat) :
    sweepPasses level passes st = sweepPassesSpec level passes st ∧
    runPassesFuel level passes (n + 1) st =
      (if (sweepPasses level passes st).2 then
        runPassesFuel level passes n (sweepPasses level passes st).1
      else some (sweepPasses level passes st).1) := by
  constructor
  · exact sweepPasses_eq_filtered level passes (st, false)
  · simp only [runPassesFuel]

/-! ## C10 -/

/-- C10 counterexample: the printer spells a Branch line `branch`, not
`br`, and a void Return `return void`, not `ret void` (the Jump form is as
claimed). -/
theorem c10_cex_branch_return_spelling :
    branchSSADump plainRender 1 2 3 = "  branch %1, %2, %3\n" ∧
    branchSSADump plainRender 1 2 3 ≠ "  br %1, %2, %3\n" ∧
    returnSSADump plainRender id none = "  return void\n" ∧
    returnSSADump plainRender id none ≠ "  ret void\n" ∧
    jumpSSADump plainRender 7 = "  jump %7\n" := by
  refine ⟨rfl, ?_, rfl, ?_, rfl⟩ <;> decide

/-- C10 (amended): a Branch prints as `branch %cond, %then, %else`, a Jump
as `jump %bb1`, a void Return as `return void`, where an unnamed value in
expression position prints as `%N`. -/
theorem c10_terminator_dump_amended
    (dv : Nat → String) (names : Nat → Option String)
    (idOf tyIdOf : Nat → Nat) (c t f b v : Nat)
    (hv : names v = none) :
    branchSSADump dv c t f
        = "  branch " ++ dv c ++ ", " ++ dv t ++ ", " ++ dv f ++ "\n" ∧
    jumpSSADump dv b = "  jump " ++ dv b ++ "\n" ∧
    returnSSADump dv tyIdOf none = "  return void\n" ∧
    printId names idOf v = "%" ++ toString (idOf v) := by
  refine ⟨rfl, rfl, rfl, ?_⟩
  simp [printId, hv]

/-- C10 witness at concrete inputs. -/
theorem c10_terminator_dump_witness :
    branchSSADump plainRender 1 2 3
        = "  branch " ++ plainRender 1 ++ ", " ++ plainRender 2 ++ ", "
            ++ plainRender 3 ++ "\n" ∧
    jumpSSADump plainRender 4 = "  jump " ++ plainRender 4 ++ "\n" ∧
    returnSSADump plainRender id none = "  return void\n" ∧
    printId noNames id 5 = "%" ++ toString (id 5) :=
  c10_terminator_dump_amended plainRender noNames id id 1 2 3 4 5 rfl

/-! ## Generic lemmas about Option-valued folds -/

theorem foldlM_option_preserve {α β : Type} (P : β → Prop)
    (f : β → α → Option β) :
    ∀ (l : List α) (init res : β),
      (∀ b a r, a ∈ l → P b → f b a = some r → P r) →
      l.foldlM f init = some res → P init → P res := by
  intro l
  induction l with
  | nil =>
      intro init res _ h hp
      rw [List.foldlM_nil] at h
      cases h
      exact hp
  | cons a l ih =>
      intro init res hstep h hp
      rw [List.foldlM_cons] at h
      cases hf : f init a with
      | none => rw [hf] at h; cases h
      | some b =>
          rw [hf] at h
          exact ih b res
            (fun b2 a2 r ha2 => hstep b2 a2 r (List.mem_cons_of_mem _ ha2))
            h (hstep init a b (List.mem_cons_self a l) hp hf)

theorem foldlM_option_establish {α β : Type} (P : β → Prop)
    (f : β → α → Option β) (a0 : α)
    (hmono : ∀ b a r, f b a = some r → P b → P r)
    (htrig : ∀ b r, f b a0 = some r → P r) :
    ∀ (l : List α) (init res : β),
      a0 ∈ l → l.foldlM f init = some res → P res := by
  intro l
  induction l with
  | nil => intro init res hm; cases hm
  | cons a l ih =>
      intro init res hm h
      rw [List.foldlM_cons] at h
      cases hf : f init a with
      | none => rw [hf] at h; cases h
      | some b =>
          rw [hf] at h
          rcases List.mem_cons.mp hm with rfl | hm2
          · exact foldlM_option_preserve P f l b res
              (fun b2 a2 r _ hpb hfb => hmono b2 a2 r hfb hpb) h (htrig init b hf)
          · exact ih b res hm2 h

theorem foldlM_option_some_of_bind {α β : Type} (x : Option α)
    (f : α → Option β) (r : β) (h : x >>= f = some r) :
    ∃ a, x = some a ∧ f a = some r := by
  cases x with
  | none => simp at h
  | some a => exact ⟨a, rfl, h⟩

/-! ## Case lemmas for the LICM marking step -/

theorem logInvariant_cases (e : Env) (body : List Nat)
    (scan : Nat → Option Nat) (dom : Nat → Nat → Bool) (b : Nat)
    (st : LState) (v : Nat) :
    logInvariant e body scan dom b st v = st ∨
    logInvariant e body scan dom b st v =
      { marked := insert v st.marked
        invs := if usersOf e v = [] then st.invs else st.invs ++ [v] } := by
  unfold logInvariant
  by_cases h1 : ((oprsOf e v).all (isInvariant e body scan st.marked)) = true
  · rw [if_pos h1]
    by_cases h2 : ((usersOf e v).all
        (fun u =>
          match scan u with
          | none => true
          | some pb => if body.contains pb then dom b pb else true)) = true
    · rw [if_pos h2]; right; rfl
    · rw [if_neg h2]; left; rfl
  · rw [if_neg h1]; left; rfl

theorem runInst_cases (e : Env) (body : List Nat) (scan : Nat → Option Nat)
    (dom : Nat → Nat → Bool) (stored : List Nat) (fuel : Nat) (b : Nat)
    (st st2 : LState) (i : Nat)
    (h : runInst e body scan dom stored fuel b st i = some st2) :
    st2 = st ∨ st2 = logInvariant e body scan dom b st i := by
  unfold runInst at h
  cases hk : kindOf e i <;> rw [hk] at h <;> dsimp only at h <;>
    first
    | (cases h; exact Or.inl rfl)
    | (cases h; exact Or.inr rfl)
    | skip
  case load =>
    cases hp : (oprsOf e i).head? with
    | none => rw [hp] at h; dsimp only at h; cases h
    | some p =>
        rw [hp] at h
        dsimp only at h
        cases hb : getBasePointer e fuel p with
        | none => rw [hb] at h; cases h
        | some bp =>
            rw [hb] at h
            have h2 : (if stored.contains bp = true then (pure st : Option LState)
                else pure (logInvariant e body scan dom b st i)) = some st2 := h
            by_cases hc : stored.contains bp = true
            · rw [if_pos hc] at h2; cases h2; exact Or.inl rfl
            · rw [if_neg hc] at h2; cases h2; exact Or.inr rfl
  case alloca => cases h

theorem sweepStep_cases (e : Env) (body : List Nat) (scan : Nat → Option Nat)
    (dom : Nat → Nat → Bool) (stored : List Nat) (fuel : Nat) (b : Nat)
    (st st2 : LState) (i : Nat)
    (h : sweepStep e body scan dom stored fuel b st i = some st2) :
    st2 = st ∨ (i ∉ st.marked ∧ st2 = logInvariant e body scan dom b st i) := by
  unfold sweepStep at h
  by_cases hm : i ∈ st.marked
  · rw [if_pos hm] at h; cases h; left; rfl
  · rw [if_neg hm] at h
    rcases runInst_cases e body scan dom stored fuel b st st2 i h with h2 | h2
    · left; exact h2
    · right; exact ⟨hm, h2⟩

theorem logInvariant_marked_sub (e : Env) (body : List Nat)
    (scan : Nat → Option Nat) (dom : Nat → Nat → Bool) (b : Nat)
    (st : LState) (v : Nat) :
    st.marked ⊆ (logInvariant e body scan dom b st v).marked ∧
    ∀ x, x ∈ (logInvariant e body scan dom b st v).marked →
      x ∈ st.marked ∨ x = v := by
  rcases logInvariant_cases e body scan dom b st v with h | h <;> rw [h]
  · exact ⟨Finset.Subset.refl _, fun x hx => Or.inl hx⟩
  · constructor
    · intro x hx; exact Finset.mem_insert_of_mem hx
    · intro x hx
      rcases Finset.mem_insert.mp hx with rfl | hx2
      · exact Or.inr rfl
      · exact Or.inl hx2

theorem sweepStep_marked (e : Env) (body : List Nat)
    (scan : Nat → Option Nat) (dom : Nat → Nat → Bool) (stored : List Nat)
    (fuel : Nat) (b : Nat) (st st2 : LState) (i : Nat)
    (h : sweepStep e body scan dom stored fuel b st i = some st2) :
    st.marked ⊆ st2.marked ∧
    ∀ x, x ∈ st2.marked → x ∈ st.marked ∨ x = i := by
  rcases sweepStep_cases e body scan dom stored fuel b st st2 i h with
    rfl | ⟨_, rfl⟩
  · exact ⟨Finset.Subset.refl _, fun x hx => Or.inl hx⟩
  · exact logInvariant_marked_sub e body scan dom b st i

/-! ## Sweep-level lemmas -/

theorem sweepLoop_marked_mono (e : Env) (body : List Nat)
    (scan : Nat → Option Nat) (dom : Nat → Nat → Bool) (stored : List Nat)
    (fuel : Nat) (st st2 : LState)
    (h : sweepLoop e body scan dom stored fuel st = some st2) :
    st.marked ⊆ st2.marked := by
  unfold sweepLoop at h
  refine foldlM_option_preserve (fun s => st.marked ⊆ s.marked) _ body st st2
    ?_ h (Finset.Subset.refl _)
  intro s b r _ hs hf
  refine Finset.Subset.trans hs ?_
  refine foldlM_option_preserve (fun s2 => s.marked ⊆ s2.marked) _
    (e.insts b) s r ?_ hf (Finset.Subset.refl _)
  intro s2 i r2 _ hs2 hf2
  exact Finset.Subset.trans hs2
    (sweepStep_marked e body scan dom stored fuel b s2 r2 i hf2).1

theorem sweepLoop_marked_bound (e : Env) (body : List Nat)
    (scan : Nat → Option Nat) (dom : Nat → Nat → Bool) (stored : List Nat)
    (fuel : Nat) (st st2 : LState)
    (h : sweepLoop e body scan dom stored fuel st = some st2)
    (hb : st.marked ⊆ bodyInstsFinset e body) :
    st2.marked ⊆ bodyInstsFinset e body := by
  unfold sweepLoop at h
  refine foldlM_option_preserve (fun s => s.marked ⊆ bodyInstsFinset e body)
    _ body st st2 ?_ h hb
  intro s b r hbmem hs hf
  refine foldlM_option_preserve (fun s2 => s2.marked ⊆ bodyInstsFinset e body)
    _ (e.insts b) s r ?_ hf hs
  intro s2 i r2 himem hs2 hf2
  intro x hx
  rcases (sweepStep_marked e body scan dom stored fuel b s2 r2 i hf2).2 x hx
    with hx2 | rfl
  · exact hs2 hx2
  · unfold bodyInstsFinset
    rw [List.mem_toFinset]
    exact List.mem_flatten.mpr ⟨e.insts b, List.mem_map_of_mem _ hbmem, himem⟩

/-! ## C2 machinery: the stored-pointer set blocks load marking -/

theorem sweepStep_not_marked (e : Env) (body : List Nat)
    (scan : Nat → Option Nat) (dom : Nat → Nat → Bool) (stored : List Nat)
    (fuel : Nat) (L p bp : Nat)
    (hk : kindOf e L = VK.load)
    (hp : (oprsOf e L).head? = some p)
    (hbp : getBasePointer e fuel p = some bp)
    (hin : stored.contains bp = true) :
    ∀ (b : Nat) (st st2 : LState) (i : Nat),
      sweepStep e body scan dom stored fuel b st i = some st2 →
      L ∉ st.marked → L ∉ st2.marked := by
  intro b st st2 i h hL
  by_cases hiL : i = L
  · subst hiL
    unfold sweepStep at h
    rw [if_neg hL] at h
    unfold runInst at h
    rw [hk] at h
    dsimp only at h
    rw [hp] at h
    dsimp only at h
    rw [hbp] at h
    have h2 : (if stored.contains bp = true then (pure st : Option LState)
        else pure (logInvariant e body scan dom b st i)) = some st2 := h
    rw [if_pos hin] at h2
    cases h2
    exact hL
  · intro hL2
    rcases (sweepStep_marked e body scan dom stored fuel b st st2 i h).2 L hL2
      with h3 | h3
    · exact hL h3
    · exact hiL h3.symm

theorem sweepLoop_not_marked (e : Env) (body : List Nat)
    (scan : Nat → Option Nat) (dom : Nat → Nat → Bool) (stored : List Nat)
    (fuel : Nat) (L p bp : Nat)
    (hk : kindOf e L = VK.load)
    (hp : (oprsOf e L).head? = some p)
    (hbp : getBasePointer e fuel p = some bp)
    (hin : stored.contains bp = true) :
    ∀ (st st2 : LState),
      sweepLoop e body scan dom stored fuel st = some st2 →
      L ∉ st.marked → L ∉ st2.marked := by
  intro st st2 h hL
  unfold sweepLoop at h
  refine foldlM_option_preserve (fun s => L ∉ s.marked) _ body st st2 ?_ h hL
  intro s b r _ hs hf
  exact foldlM_option_preserve (fun s2 => L ∉ s2.marked) _ (e.insts b) s r
    (fun s2 i r2 _ hs2 hf2 =>
      sweepStep_not_marked e body scan dom stored fuel L p bp
        hk hp hbp hin b s2 r2 i hf2 hs2) hf hs

theorem licmFixAux_not_marked (e : Env) (body : List Nat)
    (scan : Nat → Option Nat) (dom : Nat → Nat → Bool) (stored : List Nat)
    (fuel : Nat) (L p bp : Nat)
    (hk : kindOf e L = VK.load)
    (hp : (oprsOf e L).head? = some p)
    (hbp : getBasePointer e fuel p = some bp)
    (hin : stored.contains bp = true) :
    ∀ (n : Nat) (st st2 : LState),
      licmFixAux e body scan dom stored fuel n st = some st2 →
      L ∉ st.marked → L ∉ st2.marked := by
  intro n
  induction n with
  | zero =>
      intro st st2 h hL
      unfold licmFixAux at h
      cases h
      exact hL
  | succ n ih =>
      intro st st2 h hL
      unfold licmFixAux at h
      obtain ⟨s1, hs1, hrest⟩ := foldlM_option_some_of_bind _ _ _ h
      have hL1 : L ∉ s1.marked :=
        sweepLoop_not_marked e body scan dom stored fuel L p bp
          hk hp hbp hin st s1 hs1 hL
      by_cases hc : s1.marked.card = st.marked.card
      · rw [if_pos hc] at hrest
        cases hrest
        exact hL1
      · rw [if_neg hc] at hrest
        exact ih s1 st2 hrest hL1

theorem storeStep_mono (e : Env) (fuel : Nat) :
    ∀ (stored r : List Nat) (i : Nat), storeStep e fuel stored i = some r →
      ∀ x, x ∈ stored → x ∈ r := by
  intro stored r i h x hx
  unfold storeStep at h
  by_cases hk : kindOf e i = VK.store
  · rw [if_pos hk] at h
    cases hptr : (oprsOf e i)[1]? with
    | none => rw [hptr] at h; dsimp only at h; cases h
    | some ptr =>
        rw [hptr] at h
        dsimp only at h
        cases hbp : getBasePointer e fuel ptr with
        | none => rw [hbp] at h; cases h
        | some bp =>
            rw [hbp] at h
            have h2 : some ((if kindOf e bp = VK.argRef then
                stored ++ ptrArgs e else stored) ++ [bp]) = some r := h
            cases h2
            split <;> simp [List.mem_append, hx]
  · rw [if_neg hk] at h
    cases h
    exact hx

theorem storeStep_argRef (e : Env) (fuel : Nat) (i ptr bp : Nat)
    (hk : kindOf e i = VK.store)
    (hptr : (oprsOf e i)[1]? = some ptr)
    (hbp : getBasePointer e fuel ptr = some bp)
    (ha : kindOf e bp = VK.argRef) :
    ∀ (stored r : List Nat), storeStep e fuel stored i = some r →
      ∀ a, a ∈ ptrArgs e → a ∈ r := by
  intro stored r h a hA
  unfold storeStep at h
  rw [if_pos hk, hptr] at h
  dsimp only at h
  rw [hbp] at h
  have h2 : some ((if kindOf e bp = VK.argRef then
      stored ++ ptrArgs e else stored) ++ [bp]) = some r := h
  cases h2
  rw [if_pos ha]
  simp [List.mem_append, hA]

theorem processStores_argRef
    (e : Env) (body : List Nat) (fuel : Nat) (S : List Nat)
    (hS : processStores e body fuel = some S)
    (b i ptr bp : Nat) (hb : b ∈ body) (hi : i ∈ e.insts b)
    (hk : kindOf e i = VK.store)
    (hptr : (oprsOf e i)[1]? = some ptr)
    (hbp : getBasePointer e fuel ptr = some bp)
    (ha : kindOf e bp = VK.argRef) :
    ∀ a, a ∈ ptrArgs e → a ∈ S := by
  intro a hA
  unfold processStores at hS
  refine foldlM_option_establish (fun s => a ∈ s) _ b ?_ ?_ body [] S hb hS
  · intro s b2 r hf hsP
    exact foldlM_option_preserve (fun s2 => a ∈ s2) _ (e.insts b2) s r
      (fun s2 i2 r2 _ hs2 hf2 => storeStep_mono e fuel s2 r2 i2 hf2 a hs2)
      hf hsP
  · intro s r hf
    refine foldlM_option_establish (fun s2 => a ∈ s2) _ i ?_ ?_
      (e.insts b) s r hi hf
    · intro s2 i2 r2 hf2 hs2
      exact storeStep_mono e fuel s2 r2 i2 hf2 a hs2
    · intro s2 r2 hf2
      exact storeStep_argRef e fuel i ptr bp hk hptr hbp ha s2 r2 hf2 a hA

/-! ## The invs queue holds exactly the marked invariants with uses -/

theorem logInvariant_invsInv (e : Env) (body : List Nat)
    (scan : Nat → Option Nat) (dom : Nat → Nat → Bool) (b : Nat)
    (st : LState) (i : Nat)
    (hni : i ∉ st.marked) (h : InvsInv e st) :
    InvsInv e (logInvariant e body scan dom b st i) := by
  rcases logInvariant_cases e body scan dom b st i with h2 | h2 <;> rw [h2]
  · exact h
  · obtain ⟨hnd, hiff⟩ := h
    have hni2 : i ∉ st.invs := fun hmem => hni ((hiff i).mp hmem).1
    constructor
    · by_cases hu : usersOf e i = []
      · rw [if_pos hu]
        exact hnd
      · rw [if_neg hu]
        simp [List.nodup_append, hnd, hni2]
    · intro v
      by_cases hv : v = i
      · subst hv
        by_cases hu : usersOf e v = []
        · rw [if_pos hu]
          simp [hni2, hu]
        · rw [if_neg hu]
          simp [List.mem_append, hu]
      · have hvq := hiff v
        by_cases hu : usersOf e i = [] <;>
          simp [hu, List.mem_append, Finset.mem_insert, hv, hvq]

theorem sweepStep_invsInv (e : Env) (body : List Nat)
    (scan : Nat → Option Nat) (dom : Nat → Nat → Bool) (stored : List Nat)
    (fuel : Nat) (b : Nat) :
    ∀ (st st2 : LState) (i : Nat),
      sweepStep e body scan dom stored fuel b st i = some st2 →
      InvsInv e st → InvsInv e st2 := by
  intro st st2 i h hI
  rcases sweepStep_cases e body scan dom stored fuel b st st2 i h with
    rfl | ⟨hni, rfl⟩
  · exact hI
  · exact logInvariant_invsInv e body scan dom b st i hni hI

theorem sweepLoop_invsInv (e : Env) (body : List Nat)
    (scan : Nat → Option Nat) (dom : Nat → Nat → Bool) (stored : List Nat)
    (fuel : Nat) :
    ∀ (st st2 : LState),
      sweepLoop e body scan dom stored fuel st = some st2 →
      InvsInv e st → InvsInv e st2 := by
  intro st st2 h hI
  unfold sweepLoop at h
  refine foldlM_option_preserve (InvsInv e) _ body st st2 ?_ h hI
  intro s b r _ hs hf
  exact foldlM_option_preserve (InvsInv e) _ (e.insts b) s r
    (fun s2 i r2 _ hs2 hf2 =>
      sweepStep_invsInv e body scan dom stored fuel b s2 r2 i hf2 hs2) hf hs

theorem licmFixAux_invsInv (e : Env) (body : List Nat)
    (scan : Nat → Option Nat) (dom : Nat → Nat → Bool) (stored : List Nat)
    (fuel : Nat) :
    ∀ (n : Nat) (st st2 : LState),
      licmFixAux e body scan dom stored fuel n st = some st2 →
      InvsInv e st → InvsInv e st2 := by
  intro n
  induction n with
  | zero =>
      intro st st2 h hI
      unfold licmFixAux at h
      cases h
      exact hI
  | succ n ih =>
      intro st st2 h hI
      unfold licmFixAux at h
      obtain ⟨s1, hs1, hrest⟩ := foldlM_option_some_of_bind _ _ _ h
      have hI1 : InvsInv e s1 :=
        sweepLoop_invsInv e body scan dom stored fuel st s1 hs1 hI
      by_cases hc : s1.marked.card = st.marked.card
      · rw [if_pos hc] at hrest
        cases hrest
        exact hI1
      · rw [if_neg hc] at hrest
        exact ih s1 st2 hrest hI1

theorem licmFinalState_invsInv (e : Env) (scan : Nat → Option Nat)
    (lp : LoopI) (fuel : Nat) (st : LState)
    (h : licmFinalState e scan lp fuel = some st) : InvsInv e st := by
  unfold licmFinalState at h
  obtain ⟨S, _, h2⟩ := foldlM_option_some_of_bind _ _ _ h
  refine licmFixAux_invsInv e lp.body scan e.dom S fuel _ _ st h2 ?_
  constructor
  · exact List.nodup_nil
  · intro v
    simp [LState.mk, InvsInv]

/-! ## C8 machinery: stabilization of the marking fixpoint -/

theorem bodyInstsFinset_card (e : Env) (body : List Nat) :
    (bodyInstsFinset e body).card ≤ totalBodyInsts e body := by
  unfold bodyInstsFinset totalBodyInsts
  refine le_trans (List.toFinset_card_le _) ?_
  rw [List.length_flatten, List.map_map]
  exact Nat.le_of_eq rfl

theorem sweepIter_succ_inv (e : Env) (body : List Nat)
    (scan : Nat → Option Nat) (dom : Nat → Nat → Bool) (stored : List Nat)
    (fuel : Nat) (n : Nat) (st0 st : LState)
    (h : sweepIter e body scan dom stored fuel (n + 1) st0 = some st) :
    ∃ st1, sweepIter e body scan dom stored fuel n st0 = some st1 ∧
      sweepLoop e body scan dom stored fuel st1 = some st := by
  unfold sweepIter at h
  exact foldlM_option_some_of_bind _ _ _ h

theorem sweepIter_bounded (e : Env) (body : List Nat)
    (scan : Nat → Option Nat) (dom : Nat → Nat → Bool) (stored : List Nat)
    (fuel : Nat) :
    ∀ (n : Nat) (st : LState),
      sweepIter e body scan dom stored fuel n { marked := ∅, invs := [] }
          = some st →
      st.marked ⊆ bodyInstsFinset e body := by
  intro n
  induction n with
  | zero =>
      intro st h
      unfold sweepIter at h
      cases h
      intro x hx
      simp at hx
  | succ n ih =>
      intro st h
      obtain ⟨st1, h1, h2⟩ :=
        sweepIter_succ_inv e body scan dom stored fuel n _ st h
      exact sweepLoop_marked_bound e body scan dom stored fuel st1 st h2
        (ih st1 h1)

/-! ## C1 machinery: the hoist step -/

theorem find?_of_insts_ne_nil (e : Env) (b : Nat)
    (h : e.insts b ≠ []) :
    ∃ q, e.blocks.find? (fun p => p.1 == b) = some q := by
  unfold Env.insts at h
  cases hf : e.blocks.find? (fun p => p.1 == b) with
  | none => rw [hf] at h; simp at h
  | some q => exact ⟨q, rfl⟩

theorem find?_map_setList (b b2 : Nat) (l : List Nat) (hne : b2 ≠ b) :
    ∀ (bs : List (Nat × List Nat)),
      (bs.map fun p => if p.1 == b then (p.1, l) else p).find?
          (fun p => p.1 == b2)
        = bs.find? (fun p => p.1 == b2) := by
  intro bs
  induction bs with
  | nil => rfl
  | cons q qs ih =>
      simp only [List.map_cons, List.find?_cons]
      by_cases hq : (q.1 == b) = true
      · have hqb : q.1 = b := by simpa using hq
        have hq2 : (q.1 == b2) = false := by
          simp only [beq_eq_false_iff_ne, ne_eq, hqb]
          exact fun hh => hne hh.symm
        rw [if_pos hq]
        simp only [List.find?_cons, hq2]
        simpa [hq2] using ih
      · rw [if_neg hq]
        by_cases hq2 : (q.1 == b2) = true
        · simp [hq2]
        · simp only [Bool.not_eq_true] at hq2
          simpa [hq2] using ih

theorem find?_map_setList_self (b : Nat) (l : List Nat) :
    ∀ (bs : List (Nat × List Nat)) (q : Nat × List Nat),
      bs.find? (fun p => p.1 == b) = some q →
      (bs.map fun p => if p.1 == b then (p.1, l) else p).find?
          (fun p => p.1 == b)
        = some (q.1, l) := by
  intro bs
  induction bs with
  | nil => intro q hq; simp at hq
  | cons q2 qs ih =>
      intro q hq
      rw [List.find?_cons] at hq
      simp only [List.map_cons, List.find?_cons]
      by_cases hq2 : (q2.1 == b) = true
      · rw [hq2] at hq
        cases hq
        rw [if_pos hq2]
        show (match (q2.1, l).1 == b with
          | true => some (q2.1, l)
          | false => List.find? (fun p => p.1 == b)
              (List.map (fun p => if p.1 == b then (p.1, l) else p) qs))
          = some (q2.1, l)
        rw [show ((q2.1, l).1 == b) = true from hq2]
      · simp only [Bool.not_eq_true] at hq2
        rw [hq2] at hq
        replace hq : List.find? (fun p => p.1 == b) qs = some q := hq
        rw [if_neg (by simp [hq2]), hq2]
        exact ih q hq

theorem insts_setInsts_other (e : Env) (b : Nat) (l : List Nat) (b2 : Nat)
    (hne : b2 ≠ b) : (setInsts e b l).insts b2 = e.insts b2 := by
  unfold setInsts Env.insts
  simp only
  rw [find?_map_setList b b2 l hne e.blocks]

theorem insts_setInsts_self (e : Env) (b : Nat) (l : List Nat)
    (h : ∃ q, e.blocks.find? (fun p => p.1 == b) = some q) :
    (setInsts e b l).insts b = l := by
  obtain ⟨q, hq⟩ := h
  unfold setInsts Env.insts
  simp only
  rw [find?_map_setList_self b l e.blocks q hq]
  rfl

theorem find?_map_setList_none (b : Nat) (l : List Nat) :
    ∀ (bs : List (Nat × List Nat)),
      bs.find? (fun p => p.1 == b) = none →
      (bs.map fun p => if p.1 == b then (p.1, l) else p).find?
          (fun p => p.1 == b) = none := by
  intro bs
  induction bs with
  | nil => intro _; rfl
  | cons q qs ih =>
      intro h
      rw [List.find?_cons] at h
      simp only [List.map_cons, List.find?_cons]
      cases hq : (q.1 == b) with
      | true => rw [hq] at h; cases h
      | false =>
          rw [hq] at h
          rw [if_neg (by simp [hq])]
          rw [hq]
          exact ih h

theorem insts_setInsts_filter (e : Env) (b : Nat) (q : Nat → Bool) :
    (setInsts e b ((e.insts b).filter q)).insts b = (e.insts b).filter q := by
  cases hf : e.blocks.find? (fun p => p.1 == b) with
  | some qq => exact insts_setInsts_self e b _ ⟨qq, hf⟩
  | none =>
      have h1 : e.insts b = [] := by
        unfold Env.insts
        rw [hf]
        rfl
      unfold setInsts Env.insts
      simp only
      rw [find?_map_setList_none b _ e.blocks hf, hf]
      rfl

theorem rmFold_insts (scan : Nat → Option Nat) :
    ∀ (l : List Nat) (e e2 : Env),
      l.foldlM (rmStep scan) e = some e2 →
      ∀ b, e2.insts b = (e.insts b).filter
          (fun x => !(l.contains x && scan x == some b)) := by
  intro l
  induction l with
  | nil =>
      intro e e2 h b
      rw [List.foldlM_nil] at h
      cases h
      exact (List.filter_eq_self.mpr (fun x _ => by simp)).symm
  | cons i l ih =>
      intro e e2 h b
      rw [List.foldlM_cons] at h
      cases hsi : scan i with
      | none =>
          unfold rmStep at h
          rw [hsi] at h
          cases h
      | some pb =>
          unfold rmStep at h
          rw [hsi] at h
          replace h : l.foldlM (rmStep scan)
              (setInsts e pb ((e.insts pb).filter (· != i))) = some e2 := h
          have hIH := ih _ e2 h b
          by_cases hb : b = pb
          · subst hb
            rw [insts_setInsts_filter e b (· != i), List.filter_filter] at hIH
            rw [hIH]
            refine List.filter_congr ?_
            intro x _
            by_cases hx : x = i
            · subst hx
              simp [hsi]
            · simp [hx]
          · rw [insts_setInsts_other e pb _ b hb] at hIH
            rw [hIH]
            refine List.filter_congr ?_
            intro x _
            by_cases hx : x = i
            · subst hx
              have : (some pb == some b) = false := by
                simp only [beq_eq_false_iff_ne, ne_eq, Option.some.injEq]
                exact fun hh => hb hh.symm
              simp [hsi, this]
            · simp [hx]

theorem rmFold_some (scan : Nat → Option Nat) :
    ∀ (l : List Nat) (e : Env),
      (∀ i ∈ l, (scan i).isSome) →
      ∃ e2, l.foldlM (rmStep scan) e = some e2 := by
  intro l
  induction l with
  | nil =>
      intro e _
      exact ⟨e, rfl⟩
  | cons i l ih =>
      intro e hsm
      have h1 : (scan i).isSome := hsm i (List.mem_cons_self i l)
      cases hsi : scan i with
      | none => rw [hsi] at h1; cases h1
      | some pb =>
          obtain ⟨e2, h2⟩ := ih (setInsts e pb ((e.insts pb).filter (· != i)))
            (fun j hj => hsm j (List.mem_cons_of_mem _ hj))
          refine ⟨e2, ?_⟩
          rw [List.foldlM_cons]
          unfold rmStep
          rw [hsi]
          exact h2

theorem hoistInvs_spec (e : Env) (scan : Nat → Option Nat) (pre : Nat)
    (invs pi2 : List Nat) (t : Nat)
    (hpre : e.insts pre = pi2 ++ [t])
    (hnp : ∀ i ∈ invs, scan i ≠ some pre)
    (hsm : ∀ i ∈ invs, (scan i).isSome) :
    ∃ e2, hoistInvs e scan pre invs = some e2 ∧
      e2.insts pre = pi2 ++ invs ++ [t] ∧
      ∀ b, b ≠ pre → e2.insts b = (e.insts b).filter
        (fun x => !(invs.contains x && scan x == some b)) := by
  have hfind : ∃ q, e.blocks.find? (fun p => p.1 == pre) = some q := by
    refine find?_of_insts_ne_nil e pre ?_
    rw [hpre]
    simp
  obtain ⟨e2, hfold⟩ := rmFold_some scan invs
    (setInsts e pre (pi2.reverse.reverse ++ invs ++ [t])) hsm
  have hH : hoistInvs e scan pre invs = some e2 := by
    unfold hoistInvs
    rw [hpre, List.reverse_append]
    simp only [List.reverse_singleton, List.singleton_append]
    exact hfold
  have he1 : (setInsts e pre (pi2.reverse.reverse ++ invs ++ [t])).insts pre
      = pi2 ++ invs ++ [t] := by
    rw [List.reverse_reverse]
    exact insts_setInsts_self e pre _ hfind
  refine ⟨e2, hH, ?_, ?_⟩
  · have h2 := rmFold_insts scan invs _ e2 hfold pre
    rw [he1] at h2
    rw [h2]
    refine List.filter_eq_self.mpr ?_
    intro x _
    by_cases hx : x ∈ invs
    · have hsc : (scan x == some pre) = false := by
        simp only [beq_eq_false_iff_ne, ne_eq]
        exact hnp x hx
      rw [hsc]
      simp
    · have hcx : invs.contains x = false := by simp [hx]
      rw [hcx]
      simp
  · intro b hb
    have h2 := rmFold_insts scan invs _ e2 hfold b
    rw [insts_setInsts_other e pre _ b hb] at h2
    exact h2

theorem mem_insts_entry (e : Env) (b : Nat) (x : Nat) (hx : x ∈ e.insts b) :
    ∃ p, p ∈ e.blocks ∧ p.1 = b ∧ x ∈ p.2 := by
  unfold Env.insts at hx
  cases hf : e.blocks.find? (fun p => p.1 == b) with
  | none => rw [hf] at hx; simp at hx
  | some q =>
      rw [hf] at hx
      replace hx : x ∈ q.2 := hx
      exact ⟨q, List.mem_of_find?_eq_some hf,
        by simpa using List.find?_some hf, hx⟩

/-! ## C7 machinery -/

theorem processLoop_false (e : Env) (scan : Nat → Option Nat) (lp : LoopI)
    (fuel : Nat) (e2 : Env)
    (h : processLoop e scan lp fuel = some (e2, false)) : e2 = e := by
  unfold processLoop at h
  obtain ⟨st, _, h2⟩ := foldlM_option_some_of_bind _ _ _ h
  by_cases hi : st.invs = []
  · rw [if_pos hi] at h2
    cases h2
    rfl
  · rw [if_neg hi] at h2
    obtain ⟨e3, _, h3⟩ := foldlM_option_some_of_bind _ _ _ h2
    injection h3 with h4
    exact absurd (congrArg Prod.snd h4) (by simp)

theorem foldlM_loopStep_false (scan : Nat → Option Nat) (fuel : Nat) :
    ∀ (loops : List LoopI) (a : Env × Bool) (e2 : Env),
      loops.foldlM (loopStep scan fuel) a = some (e2, false) →
      e2 = a.1 ∧ a.2 = false := by
  intro loops
  induction loops with
  | nil =>
      intro a e2 h
      rw [List.foldlM_nil] at h
      cases h
      exact ⟨rfl, rfl⟩
  | cons lp ls ih =>
      intro a e2 h
      rw [List.foldlM_cons] at h
      obtain ⟨b, hb, hrest⟩ := foldlM_option_some_of_bind _ _ _ h
      obtain ⟨hb1, hb2⟩ := ih b e2 hrest
      unfold loopStep at hb
      obtain ⟨r, hr, hpure⟩ := foldlM_option_some_of_bind _ _ _ hb
      cases hpure
      simp only at hb1 hb2
      have ha2 : a.2 = false ∧ r.2 = false := by
        simpa using hb2
      have hr2 : processLoop a.1 scan lp fuel = some (r.1, false) := by
        rw [← ha2.2]
        exact hr
      have := processLoop_false a.1 scan lp fuel r.1 hr2
      exact ⟨hb1.trans this, ha2.1⟩

/-! ## C1 -/

/-- C1 counterexample: in a single loop whose body set iterates block 3
before block 2 (block 2 being first in program order), ProcessLoop marks
value 23 invariant but never hoists it (it has no uses, so it never enters
the hoist queue and stays in block 2), and the instructions it does hoist
arrive in the preheader in marking order [31, 21] — the reverse of their
program order. -/
theorem c1_cex_unused_invariant_and_order :
    (licmFinalState c1Env (parentOf c1Env) c1Loop 9).map
        (fun st => (decide (23 ∈ st.marked), st.invs)) = some (true, [31, 21]) ∧
    (processLoop c1Env (parentOf c1Env) c1Loop 9).map
        (fun r => ((r.1.insts 1, r.1.insts 2), r.2))
      = some (([31, 21, 100], [22, 23, 103]), true) := by
  constructor <;> decide

/-- C1 (amended): when the marking fixpoint yields a non-empty hoist queue,
ProcessLoop moves exactly the queued instructions — the marked invariants
with at least one use, in marking order — into the preheader immediately
before its terminator, and removes them from every other block; marked
invariants without uses are not queued and stay where they are. -/
theorem c1_hoist_amended
    (e : Env) (scan : Nat → Option Nat) (lp : LoopI) (fuel : Nat)
    (st : LState) (pi2 : List Nat) (t : Nat)
    (hfs : licmFinalState e scan lp fuel = some st)
    (hne : st.invs ≠ [])
    (hpre : e.insts lp.preheader = pi2 ++ [t])
    (hnp : ∀ i ∈ st.invs, scan i ≠ some lp.preheader)
    (hsm : ∀ i ∈ st.invs, (scan i).isSome)
    (h5 : ∀ i ∈ st.invs, ∀ p ∈ e.blocks, i ∈ p.2 → scan i = some p.1) :
    ∃ e2, processLoop e scan lp fuel = some (e2, true) ∧
      e2.insts lp.preheader = pi2 ++ st.invs ++ [t] ∧
      (∀ b, b ≠ lp.preheader →
        e2.insts b = (e.insts b).filter (fun x => !(st.invs.contains x))) ∧
      st.invs.Nodup ∧
      (∀ v, v ∈ st.invs ↔ v ∈ st.marked ∧ usersOf e v ≠ []) := by
  obtain ⟨hnd, hiff⟩ := licmFinalState_invsInv e scan lp fuel st hfs
  obtain ⟨e2, hH, hpre2, hoth⟩ :=
    hoistInvs_spec e scan lp.preheader st.invs pi2 t hpre hnp hsm
  refine ⟨e2, ?_, hpre2, ?_, hnd, hiff⟩
  · unfold processLoop
    rw [hfs]
    show (if st.invs = [] then (pure (e, false) : Option (Env × Bool))
      else hoistInvs e scan lp.preheader st.invs >>=
        fun e3 => pure (e3, true)) = some (e2, true)
    rw [if_neg hne, hH]
    rfl
  · intro b hb
    rw [hoth b hb]
    refine List.filter_congr ?_
    intro x hx
    by_cases hxi : x ∈ st.invs
    · obtain ⟨p, hpmem, hp1, hp2⟩ := mem_insts_entry e b x hx
      have hscan : scan x = some b := hp1 ▸ h5 x hxi p hpmem hp2
      have hc : st.invs.contains x = true := by simp [hxi]
      rw [hc, hscan]
      simp
    · have hc : st.invs.contains x = false := by simp [hxi]
      rw [hc]
      simp

/-- C1 witness: one loop, one invariant (21) with one user; it is hoisted
into the preheader before the terminator and removed from its block. -/
theorem c1_hoist_witness :
    ∃ e2, processLoop c1WitEnv (parentOf c1WitEnv) c1WitLoop 9
        = some (e2, true) ∧
      e2.insts 1 = [] ++ [21] ++ [100] ∧
      (∀ b, b ≠ (1 : Nat) →
        e2.insts b = (c1WitEnv.insts b).filter
          (fun x => !(([21] : List Nat).contains x))) ∧
      ([21] : List Nat).Nodup ∧
      (∀ v, v ∈ ([21] : List Nat) ↔
        v ∈ ({21} : Finset Nat) ∧ usersOf c1WitEnv v ≠ []) :=
  c1_hoist_amended c1WitEnv (parentOf c1WitEnv) c1WitLoop 9
    { marked := {21}, invs := [21] } [] 100
    (by decide) (by decide) (by decide) (by decide) (by decide) (by decide)

/-! ## C2 -/

/-- C2: a Load whose base pointer is in the stored set is never marked
invariant (hence never hoisted); and whenever some store in the loop body
has an ArgRef base pointer, every pointer-typed argument of the function is
in the stored set. -/
theorem c2_load_guard_and_argref
    (e : Env) (lp : LoopI) (scan : Nat → Option Nat) (fuel : Nat)
    (S : List Nat) (st : LState) (L p bp : Nat)
    (hS : processStores e lp.body fuel = some S)
    (hfs : licmFinalState e scan lp fuel = some st)
    (hk : kindOf e L = VK.load)
    (hp : (oprsOf e L).head? = some p)
    (hbp : getBasePointer e fuel p = some bp)
    (hin : S.contains bp = true) :
    L ∉ st.marked ∧
    (∀ b i ptr bp2, b ∈ lp.body → i ∈ e.insts b →
      kindOf e i = VK.store → (oprsOf e i)[1]? = some ptr →
      getBasePointer e fuel ptr = some bp2 → kindOf e bp2 = VK.argRef →
      ∀ a, (a, true) ∈ e.funcArgs → a ∈ S) := by
  constructor
  · unfold licmFinalState at hfs
    rw [hS] at hfs
    replace hfs : licmFixAux e lp.body scan e.dom S fuel
        (totalBodyInsts e lp.body + 1) { marked := ∅, invs := [] }
        = some st := hfs
    exact licmFixAux_not_marked e lp.body scan e.dom S fuel L p bp
      hk hp hbp hin _ _ st hfs (by simp)
  · intro b i ptr bp2 hb hi hk2 hptr hbp2 ha a hA
    have hA2 : a ∈ ptrArgs e := by
      unfold ptrArgs
      exact List.mem_map_of_mem _ (List.mem_filter.mpr ⟨hA, rfl⟩)
    exact processStores_argRef e lp.body fuel S hS b i ptr bp2
      hb hi hk2 hptr hbp2 ha a hA2

/-- C2 witness: a loop storing through one pointer argument and loading
through the other — the load (41) ends unmarked, and both pointer arguments
(30, 31) are in the stored set. -/
theorem c2_load_guard_witness :
    (41 ∉ (⟨∅, []⟩ : LState).marked) ∧
    (∀ b i ptr bp2, b ∈ c2Loop.body → i ∈ c2Env.insts b →
      kindOf c2Env i = VK.store → (oprsOf c2Env i)[1]? = some ptr →
      getBasePointer c2Env 9 ptr = some bp2 →
      kindOf c2Env bp2 = VK.argRef →
      ∀ a, (a, true) ∈ c2Env.funcArgs → a ∈ [30, 31, 30]) :=
  c2_load_guard_and_argref c2Env c2Loop (parentOf c2Env) 9 [30, 31, 30]
    ⟨∅, []⟩ 41 31 31
    (by decide) (by decide) (by decide) (by decide) (by decide) (by decide)

/-! ## C7 -/

/-- C7 counterexample: on the nested loop nest of c7Env the first LICM run
hoists and reports change, and the second run reports change again — the
inner loop's preheader lies inside the outer loop's body, and the stale
parent scanner makes the outer loop re-hoist the already-hoisted
instruction. -/
theorem c7_cex_second_run_changes :
    (runOnFunction c7Env 9).map Prod.snd = some true ∧
    ((runOnFunction c7Env 9).bind fun r => runOnFunction r.1 9).map Prod.snd
      = some true := by
  constructor <;> decide

/-- C7 (amended): a run of LICM that reports changed = false is a fixpoint —
it left the function untouched, and an immediate re-run again reports
changed = false.  (A run that did hoist can leave work behind: see the
counterexample.) -/
theorem c7_no_change_is_fixpoint (e : Env) (fuel : Nat) (e2 : Env)
    (h : runOnFunction e fuel = some (e2, false)) :
    e2 = e ∧ runOnFunction e2 fuel = some (e2, false) := by
  unfold runOnFunction at h
  obtain ⟨he, _⟩ := foldlM_loopStep_false (parentOf e) fuel e.loops
    (e, false) e2 h
  simp only at he
  subst he
  constructor
  · rfl
  · unfold runOnFunction
    exact h

/-- C7 witness: a function with no loops reports changed = false, and so
does the re-run. -/
theorem c7_no_change_witness :
    c7WitEnv = c7WitEnv ∧
    runOnFunction c7WitEnv 1 = some (c7WitEnv, false) :=
  c7_no_change_is_fixpoint c7WitEnv 1 c7WitEnv rfl

/-! ## C8 -/

/-- C8: the invariant-marking fixpoint stabilizes — each sweep only grows
the marked set, the marked set stays inside the loop body's instructions,
and within (number of body instructions) + 1 sweeps some sweep leaves the
marked set unchanged. -/
theorem c8_marking_fixpoint_stabilizes
    (e : Env) (body : List Nat) (scan : Nat → Option Nat)
    (dom : Nat → Nat → Bool) (stored : List Nat) (fuel : Nat) (stN : LState)
    (hN : sweepIter e body scan dom stored fuel (totalBodyInsts e body + 1)
        { marked := ∅, invs := [] } = some stN) :
    (∀ st st2, sweepLoop e body scan dom stored fuel st = some st2 →
      st.marked ⊆ st2.marked) ∧
    (∀ n st, sweepIter e body scan dom stored fuel n
        { marked := ∅, invs := [] } = some st →
      st.marked ⊆ bodyInstsFinset e body) ∧
    (∃ n st st2, n ≤ totalBodyInsts e body ∧
      sweepIter e body scan dom stored fuel n
        { marked := ∅, invs := [] } = some st ∧
      sweepLoop e body scan dom stored fuel st = some st2 ∧
      st2.marked = st.marked) := by
  refine ⟨?_, ?_, ?_⟩
  · intro st st2 h
    exact sweepLoop_marked_mono e body scan dom stored fuel st st2 h
  · intro n st h
    exact sweepIter_bounded e body scan dom stored fuel n st h
  · by_contra hcon
    push_neg at hcon
    have grow : ∀ n, n ≤ totalBodyInsts e body + 1 →
        ∀ st, sweepIter e body scan dom stored fuel n
          { marked := ∅, invs := [] } = some st →
        n ≤ st.marked.card := by
      intro n
      induction n with
      | zero => intro _ st _; exact Nat.zero_le _
      | succ n ih =>
          intro hn st h
          obtain ⟨st1, h1, h2⟩ :=
            sweepIter_succ_inv e body scan dom stored fuel n _ st h
          have hle : n ≤ st1.marked.card :=
            ih (Nat.le_of_succ_le hn) st1 h1
          have hsub : st1.marked ⊆ st.marked :=
            sweepLoop_marked_mono e body scan dom stored fuel st1 st h2
          have hne2 : st.marked ≠ st1.marked :=
            hcon n st1 st (Nat.le_of_succ_le_succ hn) h1 h2
          have hlt : st1.marked.card < st.marked.card :=
            Finset.card_lt_card
              (ssubset_of_ne_of_subset (fun hh => hne2 hh.symm) hsub)
          omega
    have hfin := grow (totalBodyInsts e body + 1) (Nat.le_refl _) stN hN
    have hbound := sweepIter_bounded e body scan dom stored fuel _ stN hN
    have hcard : stN.marked.card ≤ totalBodyInsts e body :=
      le_trans (Finset.card_le_card hbound) (bodyInstsFinset_card e body)
    omega

/-- C8 witness: a loop body with a single branch instruction — the very
first sweep is already stable. -/
theorem c8_marking_fixpoint_witness :
    (∀ st st2, sweepLoop c8WitEnv [2] (parentOf c8WitEnv) c8WitEnv.dom [] 5
        st = some st2 → st.marked ⊆ st2.marked) ∧
    (∀ n st, sweepIter c8WitEnv [2] (parentOf c8WitEnv) c8WitEnv.dom [] 5 n
        { marked := ∅, invs := [] } = some st →
      st.marked ⊆ bodyInstsFinset c8WitEnv [2]) ∧
    (∃ n st st2, n ≤ totalBodyInsts c8WitEnv [2] ∧
      sweepIter c8WitEnv [2] (parentOf c8WitEnv) c8WitEnv.dom [] 5 n
        { marked := ∅, invs := [] } = some st ∧
      sweepLoop c8WitEnv [2] (parentOf c8WitEnv) c8WitEnv.dom [] 5 st
        = some st2 ∧
      st2.marked = st.marked) :=
  c8_marking_fixpoint_stabilizes c8WitEnv [2] (parentOf c8WitEnv)
    c8WitEnv.dom [] 5 ⟨∅, []⟩ (by decide)

/-! ## C9 -/

/-- A Phi whose step makes no progress traps GetBasePointer forever. -/
theorem gbp_phi_stuck (e : Env) (p : Nat) (hphi : kindOf e p = VK.phi)
    (hfix : phiNext e p = some p) :
    ∀ fuel, getBasePointer e fuel p = none := by
  intro fuel
  induction fuel with
  | zero => rfl
  | succ n ih =>
      unfold getBasePointer
      rw [hphi]
      dsimp only
      rw [hfix]
      exact ih

/-- C9: GetBasePointer does not terminate on every input — on a Phi whose
single incoming operand value is a user of the phi, the phi step never
changes the pointer and the peeling loop spins forever (no fuel suffices). -/
theorem c9_get_base_pointer_diverges :
    phiNext c9Env 40 = some 40 ∧
    ∀ fuel, getBasePointer c9Env fuel 40 = none :=
  ⟨by decide, gbp_phi_stuck c9Env 40 (by decide) (by decide)⟩

end MimiC
